import Mathlib

/-!
Verification of the path-tracer core of `main.cc` (huynhducmink/traycer).

The integrator `color`, the world constructor and the driver `writeImage`
live in `src/main.cc` and are translated directly.  The headers declaring
`Vec3`, `Ray`, `Hit`, `Sphere`, `ObjCollection` and the `Material`
hierarchy are not part of the repository snapshot, so those components are
modelled from the specification (sections 3, 4.3, 4.4) and are marked
`Modelled from the spec:` in their doc comments.

Real-valued scalars are modelled by `ℚ` (exact arithmetic); the C library
`sqrt` is modelled by `ratSqrt`, which is exact on perfect-square
rationals — every concrete input evaluated below has a perfect-square
discriminant.
-/

/-- Modelled from the spec: three-component real-valued vector type
(`vec3.h` is not in the snapshot).  Components are modelled by `ℚ`. -/
structure Vec3 where
  x : ℚ
  y : ℚ
  z : ℚ
deriving DecidableEq, Repr

namespace Vec3

/-- Component-wise addition (`operator+`). -/
instance : Add Vec3 := ⟨fun a b => ⟨a.x + b.x, a.y + b.y, a.z + b.z⟩⟩

/-- Component-wise subtraction (`operator-`). -/
instance : Sub Vec3 := ⟨fun a b => ⟨a.x - b.x, a.y - b.y, a.z - b.z⟩⟩

/-- Component-wise product (`operator*` between vectors); this is the
product the integrator uses for `attenuation * color(...)`. -/
instance : Mul Vec3 := ⟨fun a b => ⟨a.x * b.x, a.y * b.y, a.z * b.z⟩⟩

/-- Scalar multiplication. -/
instance : SMul ℚ Vec3 := ⟨fun q v => ⟨q * v.x, q * v.y, q * v.z⟩⟩

/-- The zero vector `Vec3(0,0,0)`. -/
def zero : Vec3 := ⟨0, 0, 0⟩

/-- Division of a vector by a scalar (`px / ns` in the driver). -/
def divScalar (v : Vec3) (q : ℚ) : Vec3 := ⟨v.x / q, v.y / q, v.z / q⟩

/-- Dot product. -/
def dot (a b : Vec3) : ℚ := a.x * b.x + a.y * b.y + a.z * b.z

@[simp] theorem add_def (a b : Vec3) :
    a + b = ⟨a.x + b.x, a.y + b.y, a.z + b.z⟩ := rfl

@[simp] theorem sub_def (a b : Vec3) :
    a - b = ⟨a.x - b.x, a.y - b.y, a.z - b.z⟩ := rfl

@[simp] theorem mul_def (a b : Vec3) :
    a * b = ⟨a.x * b.x, a.y * b.y, a.z * b.z⟩ := rfl

@[simp] theorem smul_def (q : ℚ) (v : Vec3) :
    q • v = ⟨q * v.x, q * v.y, q * v.z⟩ := rfl

/-- Component-wise non-negativity of a color triple. -/
def Nonneg (v : Vec3) : Prop := 0 ≤ v.x ∧ 0 ≤ v.y ∧ 0 ≤ v.z

instance (v : Vec3) : Decidable v.Nonneg := by unfold Nonneg; infer_instance

end Vec3

/-- Modelled from the spec: a ray is an origin point plus a direction
vector (`ray.h` is not in the snapshot). -/
structure Ray where
  origin : Vec3
  direction : Vec3
deriving DecidableEq, Repr

/-- `pointAt(t) = origin + t·direction` (spec section 3). -/
def Ray.pointAt (r : Ray) (t : ℚ) : Vec3 := r.origin + t • r.direction

/-- Modelled from the spec: a hit record carries the parametric distance
`t`, the world-space hit point and the outward surface normal
(`hit.h` is not in the snapshot). -/
structure Hit where
  t : ℚ
  p : Vec3
  normal : Vec3
deriving DecidableEq, Repr

/-- Modelled from the spec: the polymorphic material interface
(`material.h` is not in the snapshot) — `scatter(incomingRay, hit) →
optional(attenuationColor, scatteredRay)` and
`emit(surfaceCoordU, surfaceCoordV, point) → color`. -/
structure Material where
  scatter : Ray → Hit → Option (Vec3 × Ray)
  emit : ℚ → ℚ → Vec3 → Vec3

/-- A scene object pairs an intersection routine with a shared material
handle; this is the interface `ObjCollection` consumes (`obj.h` is not in
the snapshot). -/
structure Obj where
  hit : Ray → ℚ → ℚ → Option Hit
  material : Material

instance : Inhabited Obj :=
  ⟨{ hit := fun _ _ _ => none,
     material := { scatter := fun _ _ => none, emit := fun _ _ _ => Vec3.zero } }⟩

/-- Largest `k ≤ k₀` with `k * k ≤ n` (downward scan, structurally
recursive so that concrete values reduce). -/
def sqrtAux : ℕ → ℕ → ℕ
  | 0, _ => 0
  | k + 1, n => if (k + 1) * (k + 1) ≤ n then k + 1 else sqrtAux k n

/-- Integer square root (exact on perfect squares). -/
def natSqrt (n : ℕ) : ℕ := sqrtAux n n

/-- Model of the C library `sqrt` on exact rationals: exact whenever the
argument is a perfect-square non-negative rational (numerator and
denominator of the reduced form both perfect squares), which holds for
every concrete input evaluated in this development. -/
def ratSqrt (q : ℚ) : ℚ := (natSqrt q.num.toNat : ℚ) / (natSqrt q.den : ℚ)

/-- `ratSqrt` is non-negative, as the real `sqrt` is on the discriminant
branch where it is called. -/
theorem ratSqrt_nonneg (q : ℚ) : 0 ≤ ratSqrt q := by
  unfold ratSqrt
  positivity

/-- Modelled from the spec (section 4.3): a sphere is a shared material
handle, a center and a radius (`sphere.h` is not in the snapshot). -/
structure Sphere where
  material : Material
  center : Vec3
  radius : ℚ

/-- Coefficient `a = D·D` of the sphere quadratic `|O + tD − C|² = r²`. -/
def Sphere.qa (_s : Sphere) (r : Ray) : ℚ := Vec3.dot r.direction r.direction

/-- Coefficient `b = 2·(O−C)·D` of the sphere quadratic. -/
def Sphere.qb (s : Sphere) (r : Ray) : ℚ :=
  2 * Vec3.dot (r.origin - s.center) r.direction

/-- Coefficient `c = (O−C)·(O−C) − r²` of the sphere quadratic. -/
def Sphere.qc (s : Sphere) (r : Ray) : ℚ :=
  Vec3.dot (r.origin - s.center) (r.origin - s.center) - s.radius * s.radius

/-- Discriminant `b² − 4ac` of the sphere quadratic. -/
def Sphere.disc (s : Sphere) (r : Ray) : ℚ :=
  s.qb r * s.qb r - 4 * s.qa r * s.qc r

/-- The smaller quadratic root `(−b − √disc) / (2a)`. -/
def Sphere.root1 (s : Sphere) (r : Ray) : ℚ :=
  (-s.qb r - ratSqrt (s.disc r)) / (2 * s.qa r)

/-- The larger quadratic root `(−b + √disc) / (2a)`. -/
def Sphere.root2 (s : Sphere) (r : Ray) : ℚ :=
  (-s.qb r + ratSqrt (s.disc r)) / (2 * s.qa r)

/-- Hit record built at parameter `t`: parametric distance, hit point and
outward normal `(point − center) / radius`. -/
def Sphere.hitRec (s : Sphere) (r : Ray) (t : ℚ) : Hit :=
  ⟨t, r.pointAt t, (1 / s.radius) • (r.pointAt t - s.center)⟩

/-- Modelled from the spec (section 4.3): sphere–ray intersection.  Solve
the quadratic `|O + tD − C|² = r²`; discriminant `< 0` → no hit; otherwise
accept the smaller root if it lies within `(tMin, tMax)`, else try the
larger root, else report no hit; on acceptance the hit carries `t`, the
hit point, and outward normal `(point − center) / radius`. -/
def Sphere.hit (s : Sphere) (r : Ray) (tMin tMax : ℚ) : Option Hit :=
  if s.disc r < 0 then none
  else if tMin < s.root1 r ∧ s.root1 r < tMax then some (s.hitRec r (s.root1 r))
  else if tMin < s.root2 r ∧ s.root2 r < tMax then some (s.hitRec r (s.root2 r))
  else none

/-- A sphere as a scene object. -/
def Sphere.toObj (s : Sphere) : Obj := ⟨s.hit, s.material⟩

/-- The scene collection: an ordered sequence of primitives. -/
abbrev ObjCollection : Type := List Obj

/-- `ObjCollection::getObject`: positional access; indices produced by
`getHit` are always in range. -/
def ObjCollection.getObject (world : ObjCollection) (i : ℕ) : Obj :=
  List.getD world i default

/-- Modelled from the spec (section 4.4): the "closest so far" sweep —
`closest` is the current upper bound of the search interval, `i` the index
of the next primitive, `best` the winning `(index, hit)` so far. -/
def getHitAux (r : Ray) (tMin : ℚ) :
    List Obj → ℚ → ℕ → Option (ℕ × Hit) → Option (ℕ × Hit)
  | [], _, _, best => best
  | o :: rest, closest, i, best =>
    match o.hit r tMin closest with
    | some h => getHitAux r tMin rest h.t (i + 1) (some (i, h))
    | none => getHitAux r tMin rest closest (i + 1) best

/-- Modelled from the spec (section 4.4): `ObjCollection::getHit` linearly
scans all primitives, narrowing the upper bound to the closest accepted
hit found so far, and returns the index of the winning primitive plus its
hit record, or no hit if none qualify. -/
def ObjCollection.getHit (world : ObjCollection) (r : Ray) (tMin tMax : ℚ) :
    Option (ℕ × Hit) :=
  getHitAux r tMin world tMax 0 none

/-- `FLT_MAX`, the upper search bound used by the integrator
(`<cfloat>`): `(2²⁴ − 1) · 2¹⁰⁴`. -/
def FLT_MAX : ℚ := 340282346638528859811704183484516925440

/-- The recursive integrator, translated from `main.cc` lines 119–137:
query the nearest hit on `(0.001, FLT_MAX)`; on a hit, compute the
material's emission at `(0, 0, (0,0,0))` and, when `n < 25` and `scatter`
succeeds, add the attenuated recursive radiance of the scattered ray at
depth `n+1`; otherwise return the emission alone; on a miss return black. -/
def color (world : ObjCollection) (r : Ray) (n : ℕ) : Vec3 :=
  match ObjCollection.getHit world r (1 / 1000) FLT_MAX with
  | some indexedHit =>
    let index := indexedHit.1
    let hit := indexedHit.2
    let material := (ObjCollection.getObject world index).material
    let emission := material.emit 0 0 ⟨0, 0, 0⟩
    if _h : n < 25 then
      match material.scatter r hit with
      | some (attenuation, scattered) =>
        emission + attenuation * color world scattered (n + 1)
      | none => emission
    else emission
  | none => ⟨0, 0, 0⟩
termination_by 25 - n
decreasing_by omega

/-- Recursion-depth instrumentation of `color`: follows exactly the
recursive structure of `color` (same nearest-hit query, same depth guard,
same scatter dispatch) and returns the number of nested recursive calls
the integrator performs below this one. -/
def colorDepth (world : ObjCollection) (r : Ray) (n : ℕ) : ℕ :=
  match ObjCollection.getHit world r (1 / 1000) FLT_MAX with
  | some indexedHit =>
    let index := indexedHit.1
    let hit := indexedHit.2
    let material := (ObjCollection.getObject world index).material
    if _h : n < 25 then
      match material.scatter r hit with
      | some (_, scattered) => colorDepth world scattered (n + 1) + 1
      | none => 0
    else 0
  | none => 0
termination_by 25 - n
decreasing_by omega

/-- `color` with the nearest-hit search interval made an explicit
parameter; every recursive call passes the same bounds.  `color` equals
`colorVia` at `(0.001, FLT_MAX)`, which pins down the interval used by
every query of the integrator at every bounce depth. -/
def colorVia (world : ObjCollection) (tMin tMax : ℚ) (r : Ray) (n : ℕ) : Vec3 :=
  match ObjCollection.getHit world r tMin tMax with
  | some indexedHit =>
    let index := indexedHit.1
    let hit := indexedHit.2
    let material := (ObjCollection.getObject world index).material
    let emission := material.emit 0 0 ⟨0, 0, 0⟩
    if _h : n < 25 then
      match material.scatter r hit with
      | some (attenuation, scattered) =>
        emission + attenuation * colorVia world tMin tMax scattered (n + 1)
      | none => emission
    else emission
  | none => ⟨0, 0, 0⟩
termination_by 25 - n
decreasing_by omega

/-- The driver's per-channel post-processing (`main.cc` lines 209–211):
`min(255, 255·sqrt(channel))`. -/
def gammaClamp (q : ℚ) : ℚ := min 255 (255 * ratSqrt q)

/-- The `(unsigned char)` conversion applied when storing a channel
(`main.cc` lines 214–216): truncation, reduced modulo 256. -/
def toByte (q : ℚ) : ℕ := (⌊q⌋).toNat % 256

/-- The per-pixel body of the driver's render loop (`main.cc` lines
200–216): accumulate the integrator's radiance over the samples, divide
by the sample count, gamma-correct and clamp each channel, and store the
three bytes in the driver's order `(byte0, byte1, byte2) =
(blue, green, red)`. -/
def renderPixel (world : ObjCollection) (rays : List Ray) : ℕ × ℕ × ℕ :=
  let px := (rays.map (fun r => color world r 0)).foldl (· + ·) Vec3.zero
  let px := px.divScalar (rays.length : ℚ)
  (toByte (gammaClamp px.z), toByte (gammaClamp px.y), toByte (gammaClamp px.x))

/-- An intersection routine is interval-sound when every hit it accepts
on `(tMin, c)` has its parametric distance inside `(tMin, c)`.  The
spec-modelled `Sphere.hit` satisfies this. -/
def IntervalSound (o : Obj) (r : Ray) (tMin : ℚ) : Prop :=
  ∀ c h, o.hit r tMin c = some h → tMin < h.t ∧ h.t < c

/-- Widening the upper bound preserves an accepted hit. -/
def WidenStable (o : Obj) (r : Ray) (tMin : ℚ) : Prop :=
  ∀ c c' h, c ≤ c' → o.hit r tMin c = some h → o.hit r tMin c' = some h

/-- Narrowing the upper bound past an accepted hit's distance still
accepts that hit. -/
def NarrowComplete (o : Obj) (r : Ray) (tMin : ℚ) : Prop :=
  ∀ c c' h, c ≤ c' → o.hit r tMin c' = some h → h.t < c →
    o.hit r tMin c = some h

/-- The interval behaviour of a well-formed intersection routine — the
three properties the "closest so far" sweep relies on; every sphere's
intersection routine satisfies them (`sphere_hitContract`). -/
def HitContract (o : Obj) (r : Ray) (tMin : ℚ) : Prop :=
  IntervalSound o r tMin ∧ WidenStable o r tMin ∧ NarrowComplete o r tMin

/-- Component-wise non-negativity of a material: emitted colors and
accepted scatter attenuations are non-negative — the material contract of
spec section 6. -/
def MaterialNonneg (m : Material) : Prop :=
  (∀ u v p, (m.emit u v p).Nonneg) ∧
  (∀ r h a sc, m.scatter r h = some (a, sc) → a.Nonneg)

/- Concrete fixtures used by the witnesses below. -/

/-- A material that never scatters and emits nothing. -/
def dummyMat : Material := ⟨fun _ _ => none, fun _ _ _ => Vec3.zero⟩

/-- The unit sphere at the origin (spec section 8's test sphere). -/
def originSphere : Sphere := ⟨dummyMat, ⟨0, 0, 0⟩, 1⟩

/-- A second sphere overlapping the first along `axisRay`. -/
def overlapSphere : Sphere := ⟨dummyMat, ⟨0, 0, 1⟩, 1⟩

/-- The test ray from `(0,0,5)` with direction `(0,0,−1)`. -/
def axisRay : Ray := ⟨⟨0, 0, 5⟩, ⟨0, 0, -1⟩⟩

/-- A second test ray, from `(0,0,7)`, along the same direction. -/
def axisRay2 : Ray := ⟨⟨0, 0, 7⟩, ⟨0, 0, -1⟩⟩

/-- A material that never scatters and whose emission depends on the
query point. -/
def pointLight : Material :=
  ⟨fun _ _ => none, fun _ _ p => p + ⟨1, 2, 3⟩⟩

/-- A material that always scatters straight down with attenuation
`(1/2, 1/2, 1/2)`. -/
def halfMat : Material :=
  ⟨fun _ _ => some (⟨1/2, 1/2, 1/2⟩, ⟨⟨0, 0, 0⟩, ⟨0, -1, 0⟩⟩), fun _ _ _ => ⟨1, 2, 3⟩⟩

/-- An object whose intersection routine reports a hit at the ray's own
origin (so distinct rays yield distinct hit records). -/
def originHitObj (m : Material) : Obj :=
  ⟨fun r _ _ => some ⟨4, r.origin, ⟨0, 0, 1⟩⟩, m⟩

/-- One-step unfolding of `color`. -/
theorem color_unfold (world : ObjCollection) (r : Ray) (n : ℕ) :
    color world r n =
      match ObjCollection.getHit world r (1 / 1000) FLT_MAX with
      | some indexedHit =>
        let material := (ObjCollection.getObject world indexedHit.1).material
        let emission := material.emit 0 0 ⟨0, 0, 0⟩
        if n < 25 then
          match material.scatter r indexedHit.2 with
          | some (attenuation, scattered) =>
            emission + attenuation * color world scattered (n + 1)
          | none => emission
        else emission
      | none => ⟨0, 0, 0⟩ := by
  rw [color]
  rfl

/-- One-step unfolding of `colorDepth`. -/
theorem colorDepth_unfold (world : ObjCollection) (r : Ray) (n : ℕ) :
    colorDepth world r n =
      match ObjCollection.getHit world r (1 / 1000) FLT_MAX with
      | some indexedHit =>
        if n < 25 then
          match (ObjCollection.getObject world indexedHit.1).material.scatter
              r indexedHit.2 with
          | some (_, scattered) => colorDepth world scattered (n + 1) + 1
          | none => 0
        else 0
      | none => 0 := by
  rw [colorDepth]
  rfl

/-- One-step unfolding of `colorVia`. -/
theorem colorVia_unfold (world : ObjCollection) (tMin tMax : ℚ) (r : Ray) (n : ℕ) :
    colorVia world tMin tMax r n =
      match ObjCollection.getHit world r tMin tMax with
      | some indexedHit =>
        let material := (ObjCollection.getObject world indexedHit.1).material
        let emission := material.emit 0 0 ⟨0, 0, 0⟩
        if n < 25 then
          match material.scatter r indexedHit.2 with
          | some (attenuation, scattered) =>
            emission + attenuation * colorVia world tMin tMax scattered (n + 1)
          | none => emission
        else emission
      | none => ⟨0, 0, 0⟩ := by
  rw [colorVia]
  rfl

/-- **C1**: if the nearest-hit query succeeds, the integrator computes the
hit material's emission; when the depth is below the cap and `scatter`
succeeds it returns `emission + attenuation ⊙ recursiveColor` on the
scattered ray at depth `n+1`, and otherwise (scatter fails, or the cap is
reached) it returns the emission alone. -/
theorem color_hit_cases (world : ObjCollection) (r : Ray) (n i : ℕ) (h : Hit)
    (hq : ObjCollection.getHit world r (1 / 1000) FLT_MAX = some (i, h)) :
    (∀ att sc, n < 25 →
      (ObjCollection.getObject world i).material.scatter r h = some (att, sc) →
      color world r n =
        (ObjCollection.getObject world i).material.emit 0 0 ⟨0, 0, 0⟩
          + att * color world sc (n + 1))
    ∧ ((ObjCollection.getObject world i).material.scatter r h = none →
      color world r n =
        (ObjCollection.getObject world i).material.emit 0 0 ⟨0, 0, 0⟩)
    ∧ (¬ n < 25 →
      color world r n =
        (ObjCollection.getObject world i).material.emit 0 0 ⟨0, 0, 0⟩) := by
  refine ⟨?_, ?_, ?_⟩
  · intro att sc h25 hsc
    rw [color_unfold, hq]
    simp only [if_pos h25, hsc]
  · intro hsc
    rw [color_unfold, hq]
    simp only [hsc]
    split <;> rfl
  · intro h25
    rw [color_unfold, hq]
    simp only [if_neg h25]

/-- Witness for C1 on a one-object scene: the query succeeds and both the
scattering combination and the constants match. -/
theorem color_hit_cases_witness :
    ObjCollection.getHit [originHitObj halfMat] axisRay (1 / 1000) FLT_MAX =
        some (0, ⟨4, ⟨0, 0, 5⟩, ⟨0, 0, 1⟩⟩)
    ∧ color [originHitObj halfMat] axisRay 0 =
        ⟨1, 2, 3⟩ + (⟨1/2, 1/2, 1/2⟩ : Vec3) *
          color [originHitObj halfMat] ⟨⟨0, 0, 0⟩, ⟨0, -1, 0⟩⟩ 1 :=
  ⟨rfl,
    (color_hit_cases [originHitObj halfMat] axisRay 0 0
        ⟨4, ⟨0, 0, 5⟩, ⟨0, 0, 1⟩⟩ rfl).1
      ⟨1/2, 1/2, 1/2⟩ ⟨⟨0, 0, 0⟩, ⟨0, -1, 0⟩⟩ (by norm_num) rfl⟩

/-- Fuel-indexed bound on the instrumented recursion depth. -/
theorem colorDepth_le_aux (fuel : ℕ) :
    ∀ world r n, 25 - n ≤ fuel → colorDepth world r n ≤ 25 - n := by
  induction fuel with
  | zero =>
    intro world r n hf
    have h25 : ¬ n < 25 := by omega
    rw [colorDepth_unfold]
    cases hq : ObjCollection.getHit world r (1 / 1000) FLT_MAX with
    | none => exact Nat.zero_le _
    | some ih => simp only [if_neg h25]; exact Nat.zero_le _
  | succ fuel ihf =>
    intro world r n hf
    rw [colorDepth_unfold]
    cases hq : ObjCollection.getHit world r (1 / 1000) FLT_MAX with
    | none => exact Nat.zero_le _
    | some ih =>
      by_cases h25 : n < 25
      · simp only [if_pos h25]
        cases hsc : (ObjCollection.getObject world ih.1).material.scatter r ih.2 with
        | none => exact Nat.zero_le _
        | some p =>
          obtain ⟨a, sc⟩ := p
          show colorDepth world sc (n + 1) + 1 ≤ 25 - n
          have := ihf world sc (n + 1) (by omega)
          omega
      · simp only [if_neg h25]
        exact Nat.zero_le _

/-- **C2**: the integrator terminates — its recursion depth from depth `n`
is at most `25 − n`, and at the cap (`25 ≤ n`) it performs no recursive
call at all: `colorDepth` instruments the exact recursive structure of
`color` (`colorDepth_unfold`). -/
theorem color_terminates (world : ObjCollection) (r : Ray) (n : ℕ) :
    colorDepth world r n ≤ 25 - n ∧ (25 ≤ n → colorDepth world r n = 0) := by
  refine ⟨colorDepth_le_aux (25 - n) world r n le_rfl, fun h25 => ?_⟩
  have := colorDepth_le_aux (25 - n) world r n le_rfl
  omega

/-- Witness for C2: at depth 26, above the cap, a scene whose object is
always hit still produces zero recursive calls. -/
theorem color_terminates_witness :
    colorDepth [originHitObj halfMat] axisRay 26 = 0 ∧
      colorDepth [originHitObj halfMat] axisRay 26 ≤ 25 - 26 :=
  ⟨(color_terminates [originHitObj halfMat] axisRay 26).2 (by norm_num),
   (color_terminates [originHitObj halfMat] axisRay 26).1⟩

/-- **C3**: a missed nearest-hit query yields exactly the background
radiance, pure black `(0,0,0)`; in particular the empty scene yields black
for every ray and every depth. -/
theorem color_background (world : ObjCollection) (r : Ray) (n : ℕ) :
    (ObjCollection.getHit world r (1 / 1000) FLT_MAX = none →
      color world r n = ⟨0, 0, 0⟩)
    ∧ ∀ (r' : Ray) (n' : ℕ), color [] r' n' = ⟨0, 0, 0⟩ := by
  constructor
  · intro hq
    rw [color_unfold, hq]
  · intro r' n'
    rw [color_unfold]
    rfl

/-- Witness for C3: the empty scene misses, and the integrator returns
black at depth 7. -/
theorem color_background_witness :
    ObjCollection.getHit [] axisRay (1 / 1000) FLT_MAX = none ∧
      color [] axisRay 7 = ⟨0, 0, 0⟩ :=
  ⟨rfl, (color_background [] axisRay 7).1 rfl⟩

/-- The "closest so far" sweep only returns hits whose parametric
distance lies in `(tMin, tMax)`, provided every primitive's intersection
routine is interval-sound and the accumulator already satisfies the
bound. -/
theorem getHitAux_t_bounds (r : Ray) (tMin tMax : ℚ) :
    ∀ (rest : List Obj) (closest : ℚ) (i : ℕ) (best : Option (ℕ × Hit)),
    (∀ o ∈ rest, IntervalSound o r tMin) → closest ≤ tMax →
    (∀ j h, best = some (j, h) → tMin < h.t ∧ h.t < tMax) →
    ∀ j h, getHitAux r tMin rest closest i best = some (j, h) →
      tMin < h.t ∧ h.t < tMax := by
  intro rest
  induction rest with
  | nil =>
    intro closest i best _hs _hct hb j h hres
    exact hb j h hres
  | cons o rest ih =>
    intro closest i best hs hct hb j h hres
    simp only [getHitAux] at hres
    cases hoh : o.hit r tMin closest with
    | some h0 =>
      rw [hoh] at hres
      have hb0 := hs o (List.mem_cons_self o rest) closest h0 hoh
      exact ih h0.t (i + 1) (some (i, h0))
        (fun o' ho' => hs o' (List.mem_cons_of_mem o ho'))
        (le_of_lt (lt_of_lt_of_le hb0.2 hct))
        (fun j' h' he => by
          cases he
          exact ⟨hb0.1, lt_of_lt_of_le hb0.2 hct⟩)
        j h hres
    | none =>
      rw [hoh] at hres
      exact ih closest (i + 1) best
        (fun o' ho' => hs o' (List.mem_cons_of_mem o ho')) hct hb j h hres

/-- The spec-modelled sphere intersection is interval-sound: an accepted
hit's distance lies strictly inside the queried interval. -/
theorem Sphere.hit_intervalSound (s : Sphere) (r : Ray) (tMin : ℚ) :
    IntervalSound s.toObj r tMin := by
  intro c h hh
  simp only [Sphere.toObj] at hh
  unfold Sphere.hit at hh
  split_ifs at hh with hd h1 h2
  · cases hh
    exact h1
  · cases hh
    exact h2

/-- `color` agrees with `colorVia` at the fixed bounds `(0.001, FLT_MAX)`
(fuel-indexed form). -/
theorem color_eq_colorVia_aux (fuel : ℕ) :
    ∀ world r n, 25 - n ≤ fuel →
      color world r n = colorVia world (1 / 1000) FLT_MAX r n := by
  induction fuel with
  | zero =>
    intro world r n hf
    have h25 : ¬ n < 25 := by omega
    rw [color_unfold, colorVia_unfold]
    cases hq : ObjCollection.getHit world r (1 / 1000) FLT_MAX with
    | none => rfl
    | some ih => simp only [if_neg h25]
  | succ fuel ihf =>
    intro world r n hf
    rw [color_unfold, colorVia_unfold]
    cases hq : ObjCollection.getHit world r (1 / 1000) FLT_MAX with
    | none => rfl
    | some ih =>
      by_cases h25 : n < 25
      · cases hsc : (ObjCollection.getObject world ih.1).material.scatter r ih.2 with
        | none => simp only [if_pos h25, hsc]
        | some p =>
          obtain ⟨a, sc⟩ := p
          simp only [if_pos h25, hsc]
          rw [ihf world sc (n + 1) (by omega)]
      · simp only [if_neg h25]

/-- **C9**: every nearest-hit query the integrator issues, at every bounce
depth, uses the fixed search interval `(0.001, FLT_MAX)` (`color` equals
the interval-explicit `colorVia` at exactly those bounds), and — for
interval-sound primitives such as spheres — any returned hit has
`0.001 < t < FLT_MAX`, so an intersection at `t ≤ 0.001` is ignored at
every bounce. -/
theorem color_fixed_interval (world : ObjCollection) (r : Ray) (n : ℕ)
    (hs : ∀ o ∈ world, IntervalSound o r (1 / 1000)) :
    color world r n = colorVia world (1 / 1000) FLT_MAX r n
    ∧ ∀ i h, ObjCollection.getHit world r (1 / 1000) FLT_MAX = some (i, h) →
        1 / 1000 < h.t ∧ h.t < FLT_MAX := by
  refine ⟨color_eq_colorVia_aux (25 - n) world r n le_rfl, fun i h hq => ?_⟩
  exact getHitAux_t_bounds r (1 / 1000) FLT_MAX world FLT_MAX 0 none hs le_rfl
    (fun j h' he => Option.noConfusion he) i h hq

/-- Witness for C9 on the unit sphere at the origin: the returned hit has
`t = 4`, inside `(0.001, FLT_MAX)`. -/
theorem color_fixed_interval_witness :
    color [originSphere.toObj] axisRay 0 =
        colorVia [originSphere.toObj] (1 / 1000) FLT_MAX axisRay 0
    ∧ ((1 : ℚ) / 1000 < 4 ∧ (4 : ℚ) < FLT_MAX) := by
  have hc := color_fixed_interval [originSphere.toObj] axisRay 0
    (by
      intro o ho
      rw [List.mem_singleton] at ho
      subst ho
      exact Sphere.hit_intervalSound originSphere axisRay (1 / 1000))
  refine ⟨hc.1, ?_⟩
  have hq : ObjCollection.getHit [originSphere.toObj] axisRay (1 / 1000) FLT_MAX =
      some (0, ⟨4, ⟨0, 0, 1⟩, ⟨0, 0, 1⟩⟩) := by
    norm_num [ObjCollection.getHit, getHitAux, Sphere.toObj, Sphere.hit,
      Sphere.disc, Sphere.qa, Sphere.qb, Sphere.qc, Sphere.root1, Sphere.root2,
      Sphere.hitRec, ratSqrt, natSqrt, sqrtAux, Vec3.dot, Ray.pointAt,
      originSphere, axisRay, FLT_MAX]
  simpa using hc.2 0 ⟨4, ⟨0, 0, 1⟩, ⟨0, 0, 1⟩⟩ hq

/-- **C10**: the integrator invokes the hit material's `emit` with
`u = 0`, `v = 0` and point `(0,0,0)` independent of the hit record: two
rays whose nearest hits carry the same material contribute the same
emission, even when the material's `emit` depends on the query point. -/
theorem color_emit_ignores_hit (world : ObjCollection) (r1 r2 : Ray)
    (n1 n2 i1 i2 : ℕ) (h1 h2 : Hit)
    (hq1 : ObjCollection.getHit world r1 (1 / 1000) FLT_MAX = some (i1, h1))
    (hq2 : ObjCollection.getHit world r2 (1 / 1000) FLT_MAX = some (i2, h2))
    (hm : (ObjCollection.getObject world i1).material =
      (ObjCollection.getObject world i2).material)
    (hs1 : (ObjCollection.getObject world i1).material.scatter r1 h1 = none)
    (hs2 : (ObjCollection.getObject world i2).material.scatter r2 h2 = none) :
    color world r1 n1 =
      (ObjCollection.getObject world i1).material.emit 0 0 ⟨0, 0, 0⟩
    ∧ color world r1 n1 = color world r2 n2 := by
  have e1 : color world r1 n1 =
      (ObjCollection.getObject world i1).material.emit 0 0 ⟨0, 0, 0⟩ := by
    rw [color_unfold, hq1]
    simp only [hs1]
    split <;> rfl
  have e2 : color world r2 n2 =
      (ObjCollection.getObject world i2).material.emit 0 0 ⟨0, 0, 0⟩ := by
    rw [color_unfold, hq2]
    simp only [hs2]
    split <;> rfl
  exact ⟨e1, by rw [e1, e2, hm]⟩

/-- Witness for C10: two rays with distinct hit points on the same
point-dependent emitter produce the same radiance. -/
theorem color_emit_ignores_hit_witness :
    ObjCollection.getHit [originHitObj pointLight] axisRay (1 / 1000) FLT_MAX =
        some (0, ⟨4, ⟨0, 0, 5⟩, ⟨0, 0, 1⟩⟩)
    ∧ ObjCollection.getHit [originHitObj pointLight] axisRay2 (1 / 1000) FLT_MAX =
        some (0, ⟨4, ⟨0, 0, 7⟩, ⟨0, 0, 1⟩⟩)
    ∧ color [originHitObj pointLight] axisRay 0 =
        color [originHitObj pointLight] axisRay2 3 :=
  ⟨rfl, rfl,
    (color_emit_ignores_hit [originHitObj pointLight] axisRay axisRay2 0 3 0 0
      ⟨4, ⟨0, 0, 5⟩, ⟨0, 0, 1⟩⟩ ⟨4, ⟨0, 0, 7⟩, ⟨0, 0, 1⟩⟩
      rfl rfl rfl rfl rfl).2⟩

/-- The fallback object's material is non-negative. -/
theorem default_material_nonneg : MaterialNonneg (default : Obj).material := by
  constructor
  · intro u v p
    exact ⟨le_refl 0, le_refl 0, le_refl 0⟩
  · intro r h a sc hs
    exact Option.noConfusion hs

/-- Positional access returns a material covered by a scene-wide material
contract (out-of-range indices yield the harmless fallback). -/
theorem getObject_material_nonneg (world : ObjCollection)
    (hm : ∀ o ∈ world, MaterialNonneg o.material) (i : ℕ) :
    MaterialNonneg (ObjCollection.getObject world i).material := by
  unfold ObjCollection.getObject
  have hgd : List.getD world i default = (world.get? i).getD default := rfl
  rcases hg : world.get? i with _ | o
  · rw [hgd, hg]
    exact default_material_nonneg
  · rw [hgd, hg]
    exact hm o (List.get?_mem hg)

/-- Fuel-indexed non-negativity of the integrator's output. -/
theorem color_nonneg_aux (fuel : ℕ) :
    ∀ world r n, 25 - n ≤ fuel →
      (∀ o ∈ world, MaterialNonneg o.material) → (color world r n).Nonneg := by
  induction fuel with
  | zero =>
    intro world r n hf hm
    have h25 : ¬ n < 25 := by omega
    rw [color_unfold]
    cases hq : ObjCollection.getHit world r (1 / 1000) FLT_MAX with
    | none => exact ⟨le_refl 0, le_refl 0, le_refl 0⟩
    | some ih =>
      simp only [if_neg h25]
      exact (getObject_material_nonneg world hm ih.1).1 0 0 ⟨0, 0, 0⟩
  | succ fuel ihf =>
    intro world r n hf hm
    rw [color_unfold]
    cases hq : ObjCollection.getHit world r (1 / 1000) FLT_MAX with
    | none => exact ⟨le_refl 0, le_refl 0, le_refl 0⟩
    | some ih =>
      by_cases h25 : n < 25
      · cases hsc : (ObjCollection.getObject world ih.1).material.scatter r ih.2 with
        | none =>
          simp only [if_pos h25, hsc]
          exact (getObject_material_nonneg world hm ih.1).1 0 0 ⟨0, 0, 0⟩
        | some p =>
          obtain ⟨a, sc⟩ := p
          simp only [if_pos h25, hsc]
          have he := (getObject_material_nonneg world hm ih.1).1 0 0 ⟨0, 0, 0⟩
          have ha := (getObject_material_nonneg world hm ih.1).2 r ih.2 a sc hsc
          have hr := ihf world sc (n + 1) (by omega) hm
          exact ⟨add_nonneg he.1 (mul_nonneg ha.1 hr.1),
                 add_nonneg he.2.1 (mul_nonneg ha.2.1 hr.2.1),
                 add_nonneg he.2.2 (mul_nonneg ha.2.2 hr.2.2)⟩
      · simp only [if_neg h25]
        exact (getObject_material_nonneg world hm ih.1).1 0 0 ⟨0, 0, 0⟩

/-- **C6**: under the material contracts (emitted colors and accepted
scatter attenuations component-wise non-negative), every component of the
integrator's radiance is a non-negative exact rational — in this exact
arithmetic model no NaN exists and no negative value can arise. -/
theorem color_nonneg (world : ObjCollection) (r : Ray) (n : ℕ)
    (hm : ∀ o ∈ world, MaterialNonneg o.material) :
    (color world r n).Nonneg :=
  color_nonneg_aux (25 - n) world r n le_rfl hm

/-- Witness for C6: a scene with one non-negative scattering material. -/
theorem color_nonneg_witness :
    (∀ o ∈ [originHitObj halfMat], MaterialNonneg o.material) ∧
      (color [originHitObj halfMat] axisRay 0).Nonneg := by
  have hm : ∀ o ∈ [originHitObj halfMat], MaterialNonneg o.material := by
    intro o ho
    rw [List.mem_singleton] at ho
    subst ho
    constructor
    · intro u v p
      exact ⟨by norm_num [originHitObj, halfMat], by norm_num [originHitObj, halfMat],
        by norm_num [originHitObj, halfMat]⟩
    · intro r h a sc hs
      have : some ((⟨1/2, 1/2, 1/2⟩ : Vec3), (⟨⟨0, 0, 0⟩, ⟨0, -1, 0⟩⟩ : Ray)) =
          some (a, sc) := hs
      cases this
      exact ⟨by norm_num, by norm_num, by norm_num⟩
  exact ⟨hm, color_nonneg [originHitObj halfMat] axisRay 0 hm⟩

/-- `a = D·D` is a sum of squares. -/
theorem Sphere.qa_nonneg (s : Sphere) (r : Ray) : 0 ≤ s.qa r := by
  unfold Sphere.qa Vec3.dot
  have hx := mul_self_nonneg r.direction.x
  have hy := mul_self_nonneg r.direction.y
  have hz := mul_self_nonneg r.direction.z
  linarith

/-- The root tried first is never larger than the root tried second. -/
theorem Sphere.root1_le_root2 (s : Sphere) (r : Ray) :
    s.root1 r ≤ s.root2 r := by
  unfold Sphere.root1 Sphere.root2
  rcases lt_or_eq_of_le (Sphere.qa_nonneg s r) with hpos | hzero
  · have h2a : (0 : ℚ) < 2 * s.qa r := by linarith
    exact (div_le_div_iff_of_pos_right h2a).mpr (by linarith [ratSqrt_nonneg (s.disc r)])
  · rw [← hzero]
    norm_num

/-- **C4**: the sphere intersection reports no hit on a negative
discriminant; otherwise it tries the smaller root first (`root1 ≤ root2`),
accepting it if it lies within `(tMin, tMax)`, else tries the larger root,
else reports no hit; an accepted hit carries the parametric distance, the
hit point, and the outward normal `(point − center) / radius`. -/
theorem sphere_hit_spec (s : Sphere) (r : Ray) (tMin tMax : ℚ) :
    (s.disc r < 0 → s.hit r tMin tMax = none)
    ∧ s.root1 r ≤ s.root2 r
    ∧ (0 ≤ s.disc r → tMin < s.root1 r → s.root1 r < tMax →
        s.hit r tMin tMax = some ⟨s.root1 r, r.pointAt (s.root1 r),
          (1 / s.radius) • (r.pointAt (s.root1 r) - s.center)⟩)
    ∧ (0 ≤ s.disc r → ¬(tMin < s.root1 r ∧ s.root1 r < tMax) →
        tMin < s.root2 r → s.root2 r < tMax →
        s.hit r tMin tMax = some ⟨s.root2 r, r.pointAt (s.root2 r),
          (1 / s.radius) • (r.pointAt (s.root2 r) - s.center)⟩)
    ∧ (¬(tMin < s.root1 r ∧ s.root1 r < tMax) →
        ¬(tMin < s.root2 r ∧ s.root2 r < tMax) →
        s.hit r tMin tMax = none) := by
  refine ⟨?_, Sphere.root1_le_root2 s r, ?_, ?_, ?_⟩
  · intro hd
    unfold Sphere.hit
    rw [if_pos hd]
  · intro hd h1a h1b
    unfold Sphere.hit
    rw [if_neg (not_lt.mpr hd), if_pos ⟨h1a, h1b⟩]
    rfl
  · intro hd h1 h2a h2b
    unfold Sphere.hit
    rw [if_neg (not_lt.mpr hd), if_neg h1, if_pos ⟨h2a, h2b⟩]
    rfl
  · intro h1 h2
    unfold Sphere.hit
    split_ifs
    · rfl
    · rfl

/-- Witness for C4, the spec's own test case: the unit sphere at the
origin and the ray from `(0,0,5)` towards `(0,0,−1)` intersect at `t = 4`,
point `(0,0,1)`, normal `(0,0,1)`. -/
theorem sphere_hit_spec_witness :
    (0 : ℚ) ≤ originSphere.disc axisRay ∧
      originSphere.hit axisRay (1 / 1000) FLT_MAX =
        some ⟨4, ⟨0, 0, 1⟩, ⟨0, 0, 1⟩⟩ := by
  have hd : (0 : ℚ) ≤ originSphere.disc axisRay := by
    norm_num [Sphere.disc, Sphere.qa, Sphere.qb, Sphere.qc, Vec3.dot,
      originSphere, axisRay]
  have hr1 : originSphere.root1 axisRay = 4 := by
    norm_num [Sphere.root1, Sphere.disc, Sphere.qa, Sphere.qb, Sphere.qc,
      ratSqrt, natSqrt, sqrtAux, Vec3.dot, originSphere, axisRay]
  have h3 := (sphere_hit_spec originSphere axisRay (1 / 1000) FLT_MAX).2.2.1
  rw [hr1] at h3
  have hhit := h3 hd (by norm_num) (by norm_num [FLT_MAX])
  refine ⟨hd, ?_⟩
  rw [hhit]
  norm_num [Ray.pointAt, originSphere, axisRay]

/-- Widening the search interval preserves a sphere hit: the accepted
root cannot change, because the smaller root is tried first. -/
theorem Sphere.hit_widenStable (s : Sphere) (r : Ray) (tMin : ℚ) :
    WidenStable s.toObj r tMin := by
  intro c c' h hcc hh
  simp only [Sphere.toObj] at hh ⊢
  unfold Sphere.hit at hh ⊢
  by_cases hd : s.disc r < 0
  · rw [if_pos hd] at hh
    exact Option.noConfusion hh
  rw [if_neg hd] at hh ⊢
  by_cases h1 : tMin < s.root1 r ∧ s.root1 r < c
  · rw [if_pos h1] at hh
    rw [if_pos ⟨h1.1, lt_of_lt_of_le h1.2 hcc⟩]
    exact hh
  · rw [if_neg h1] at hh
    by_cases h2 : tMin < s.root2 r ∧ s.root2 r < c
    · rw [if_pos h2] at hh
      have hr12 := Sphere.root1_le_root2 s r
      have hnot1 : ¬ tMin < s.root1 r := fun hlt =>
        h1 ⟨hlt, lt_of_le_of_lt hr12 h2.2⟩
      rw [if_neg (fun hc1 => hnot1 hc1.1),
        if_pos ⟨h2.1, lt_of_lt_of_le h2.2 hcc⟩]
      exact hh
    · rw [if_neg h2] at hh
      exact Option.noConfusion hh

/-- Narrowing the search interval past an accepted sphere hit's distance
still accepts the same hit. -/
theorem Sphere.hit_narrowComplete (s : Sphere) (r : Ray) (tMin : ℚ) :
    NarrowComplete s.toObj r tMin := by
  intro c c' h hcc hh hlt
  simp only [Sphere.toObj] at hh ⊢
  unfold Sphere.hit at hh ⊢
  by_cases hd : s.disc r < 0
  · rw [if_pos hd] at hh
    exact Option.noConfusion hh
  rw [if_neg hd] at hh ⊢
  by_cases h1 : tMin < s.root1 r ∧ s.root1 r < c'
  · rw [if_pos h1] at hh
    cases hh
    have hlt' : s.root1 r < c := hlt
    rw [if_pos ⟨h1.1, hlt'⟩]
  · rw [if_neg h1] at hh
    by_cases h2 : tMin < s.root2 r ∧ s.root2 r < c'
    · rw [if_pos h2] at hh
      cases hh
      have hlt' : s.root2 r < c := hlt
      have hr12 := Sphere.root1_le_root2 s r
      have hnot1 : ¬ (tMin < s.root1 r ∧ s.root1 r < c) := fun hc1 =>
        h1 ⟨hc1.1, lt_of_le_of_lt hr12 (lt_of_lt_of_le hlt' hcc)⟩
      rw [if_neg hnot1, if_pos ⟨h2.1, hlt'⟩]
    · rw [if_neg h2] at hh
      exact Option.noConfusion hh

/-- Every sphere's intersection routine satisfies the full interval
contract of the nearest-hit sweep. -/
theorem sphere_hitContract (s : Sphere) (r : Ray) (tMin : ℚ) :
    HitContract s.toObj r tMin :=
  ⟨Sphere.hit_intervalSound s r tMin, Sphere.hit_widenStable s r tMin,
   Sphere.hit_narrowComplete s r tMin⟩

/-- Full correctness of the "closest so far" sweep, by induction over the
remaining primitives, carrying the accumulator invariant (`best`'s
distance equals the current upper bound, which starts at `tMax`):
a `none` answer means no primitive (and no accumulated best) accepts a
hit on the full interval, and a `some (j, h)` answer either is the
accumulator or comes from a scanned primitive whose full-interval hit is
exactly `h`, and `h.t` is minimal among all full-interval hits of the
scanned primitives. -/
theorem getHitAux_spec (r : Ray) (tMin tMax : ℚ) :
    ∀ (rest : List Obj) (closest : ℚ) (i : ℕ) (best : Option (ℕ × Hit)),
    (∀ o ∈ rest, HitContract o r tMin) →
    closest ≤ tMax →
    (best = none → closest = tMax) →
    (∀ j h, best = some (j, h) → h.t = closest) →
    ((getHitAux r tMin rest closest i best = none →
        best = none ∧ ∀ o ∈ rest, o.hit r tMin tMax = none)
     ∧ (∀ j h, getHitAux r tMin rest closest i best = some (j, h) →
          h.t ≤ closest
          ∧ (best = some (j, h) ∨
             ∃ k o, rest.get? k = some o ∧ j = i + k ∧
               o.hit r tMin tMax = some h)
          ∧ ∀ o ∈ rest, ∀ h', o.hit r tMin tMax = some h' → h.t ≤ h'.t)) := by
  intro rest
  induction rest with
  | nil =>
    intro closest i best _hc _hct hbn hbs
    constructor
    · intro hres
      exact ⟨hres, fun o ho => absurd ho (List.not_mem_nil o)⟩
    · intro j h hres
      refine ⟨le_of_eq (hbs j h hres), Or.inl hres, ?_⟩
      intro o ho
      exact absurd ho (List.not_mem_nil o)
  | cons o rest ih =>
    intro closest i best hc hct hbn hbs
    have hcO := hc o (List.mem_cons_self o rest)
    have hcR : ∀ o' ∈ rest, HitContract o' r tMin :=
      fun o' ho' => hc o' (List.mem_cons_of_mem o ho')
    constructor
    · intro hres
      simp only [getHitAux] at hres
      cases hoh : o.hit r tMin closest with
      | some h0 =>
        rw [hoh] at hres
        have hsd := hcO.1 closest h0 hoh
        have hI := (ih h0.t (i + 1) (some (i, h0)) hcR
          (le_of_lt (lt_of_lt_of_le hsd.2 hct))
          (fun he => Option.noConfusion he)
          (fun j' h' he => by cases he; rfl)).1 hres
        exact absurd hI.1 (by simp)
      | none =>
        rw [hoh] at hres
        have hI := (ih closest (i + 1) best hcR hct hbn hbs).1 hres
        refine ⟨hI.1, ?_⟩
        intro o' ho'
        rcases List.mem_cons.mp ho' with rfl | hmem
        · rw [← hbn hI.1]
          exact hoh
        · exact hI.2 o' hmem
    · intro j h hres
      simp only [getHitAux] at hres
      cases hoh : o.hit r tMin closest with
      | some h0 =>
        rw [hoh] at hres
        have hsd := hcO.1 closest h0 hoh
        have hfull0 : o.hit r tMin tMax = some h0 :=
          hcO.2.1 closest tMax h0 hct hoh
        have hI := (ih h0.t (i + 1) (some (i, h0)) hcR
          (le_of_lt (lt_of_lt_of_le hsd.2 hct))
          (fun he => Option.noConfusion he)
          (fun j' h' he => by cases he; rfl)).2 j h hres
        refine ⟨le_trans hI.1 (le_of_lt hsd.2), ?_, ?_⟩
        · rcases hI.2.1 with hbe | ⟨k, o', hk, hj, hfull⟩
          · cases hbe
            exact Or.inr ⟨0, o, rfl, by omega, hfull0⟩
          · exact Or.inr ⟨k + 1, o', by simpa using hk, by omega, hfull⟩
        · intro o' ho' h' hfull'
          rcases List.mem_cons.mp ho' with rfl | hmem
          · rw [hfull0] at hfull'
            cases hfull'
            exact hI.1
          · exact hI.2.2 o' hmem h' hfull'
      | none =>
        rw [hoh] at hres
        have hI := (ih closest (i + 1) best hcR hct hbn hbs).2 j h hres
        refine ⟨hI.1, ?_, ?_⟩
        · rcases hI.2.1 with hbe | ⟨k, o', hk, hj, hfull⟩
          · exact Or.inl hbe
          · exact Or.inr ⟨k + 1, o', by simpa using hk, by omega, hfull⟩
        · intro o' ho' h' hfull'
          rcases List.mem_cons.mp ho' with rfl | hmem
          · by_cases hlt : h'.t < closest
            · have hn := hcO.2.2 closest tMax h' hct hfull' hlt
              rw [hn] at hoh
              exact Option.noConfusion hoh
            · push_neg at hlt
              exact le_trans hI.1 hlt
          · exact hI.2.2 o' hmem h' hfull'

/-- **C5**: for contract-satisfying primitives (all spheres are,
`sphere_hitContract`), the nearest-hit query returns the index and hit
record of a primitive whose accepted full-interval intersection distance
is minimal among all primitives' accepted intersections, and reports no
hit exactly when no primitive has an accepted intersection. -/
theorem getHit_nearest (world : ObjCollection) (r : Ray) (tMin tMax : ℚ)
    (hc : ∀ o ∈ world, HitContract o r tMin) :
    (∀ j h, ObjCollection.getHit world r tMin tMax = some (j, h) →
       (∃ o, world.get? j = some o ∧ o.hit r tMin tMax = some h)
       ∧ ∀ o ∈ world, ∀ h', o.hit r tMin tMax = some h' → h.t ≤ h'.t)
    ∧ (ObjCollection.getHit world r tMin tMax = none ↔
        ∀ o ∈ world, o.hit r tMin tMax = none) := by
  have hspec := getHitAux_spec r tMin tMax world tMax 0 none hc le_rfl
    (fun _ => rfl) (fun j h he => Option.noConfusion he)
  constructor
  · intro j h hres
    have hI := hspec.2 j h hres
    rcases hI.2.1 with hbe | ⟨k, o, hk, hj, hfull⟩
    · exact absurd hbe (by simp)
    · subst hj
      exact ⟨⟨o, by simpa using hk, hfull⟩, hI.2.2⟩
  · constructor
    · intro hres
      exact (hspec.1 hres).2
    · intro hall
      cases hres : ObjCollection.getHit world r tMin tMax with
      | none => rfl
      | some p =>
        obtain ⟨j, h⟩ := p
        have hI := hspec.2 j h hres
        rcases hI.2.1 with hbe | ⟨k, o, hk, hj, hfull⟩
        · exact absurd hbe (by simp)
        · rw [hall o (List.get?_mem hk)] at hfull
          exact Option.noConfusion hfull

/-- Witness for C5, the spec's overlapping-spheres test: with the unit
spheres centred at `(0,0,0)` and `(0,0,1)` along `axisRay`, the query
returns the second sphere's intersection at the smaller distance `t = 3`,
which is minimal among all accepted intersections. -/
theorem getHit_nearest_witness :
    ObjCollection.getHit [originSphere.toObj, overlapSphere.toObj] axisRay
        (1 / 1000) FLT_MAX = some (1, ⟨3, ⟨0, 0, 2⟩, ⟨0, 0, 1⟩⟩)
    ∧ (∃ o, [originSphere.toObj, overlapSphere.toObj].get? 1 = some o ∧
        o.hit axisRay (1 / 1000) FLT_MAX = some ⟨3, ⟨0, 0, 2⟩, ⟨0, 0, 1⟩⟩)
    ∧ ∀ o ∈ [originSphere.toObj, overlapSphere.toObj], ∀ h',
        o.hit axisRay (1 / 1000) FLT_MAX = some h' →
          (⟨3, ⟨0, 0, 2⟩, ⟨0, 0, 1⟩⟩ : Hit).t ≤ h'.t := by
  have hc : ∀ o ∈ [originSphere.toObj, overlapSphere.toObj],
      HitContract o axisRay (1 / 1000) := by
    intro o ho
    rcases List.mem_cons.mp ho with rfl | ho2
    · exact sphere_hitContract originSphere axisRay (1 / 1000)
    · rcases List.mem_cons.mp ho2 with rfl | ho3
      · exact sphere_hitContract overlapSphere axisRay (1 / 1000)
      · exact absurd ho3 (List.not_mem_nil o)
  have hq : ObjCollection.getHit [originSphere.toObj, overlapSphere.toObj]
      axisRay (1 / 1000) FLT_MAX = some (1, ⟨3, ⟨0, 0, 2⟩, ⟨0, 0, 1⟩⟩) := by
    norm_num [ObjCollection.getHit, getHitAux, Sphere.toObj, Sphere.hit,
      Sphere.disc, Sphere.qa, Sphere.qb, Sphere.qc, Sphere.root1, Sphere.root2,
      Sphere.hitRec, ratSqrt, natSqrt, sqrtAux, Vec3.dot, Ray.pointAt,
      originSphere, overlapSphere, axisRay, FLT_MAX]
  have h := (getHit_nearest [originSphere.toObj, overlapSphere.toObj] axisRay
    (1 / 1000) FLT_MAX hc).1 1 ⟨3, ⟨0, 0, 2⟩, ⟨0, 0, 1⟩⟩ hq
  exact ⟨hq, h.1, h.2⟩

/-- Folding component-wise vector addition computes the component-wise
sums. -/
theorem foldl_add_components (l : List Vec3) :
    ∀ v : Vec3, l.foldl (· + ·) v =
      ⟨v.x + (l.map Vec3.x).sum, v.y + (l.map Vec3.y).sum,
       v.z + (l.map Vec3.z).sum⟩ := by
  induction l with
  | nil =>
    intro v
    cases v
    simp
  | cons a l ih =>
    intro v
    simp only [List.foldl_cons, List.map_cons, List.sum_cons]
    rw [ih]
    simp only [Vec3.add_def, Vec3.mk.injEq]
    refine ⟨by ring, by ring, by ring⟩

/-- **C8**: for every pixel the driver stores, per channel, the byte
`(unsigned char)(min(255, 255·sqrt(m)))` where `m` is the mean of that
channel over the per-sample radiances returned by the integrator: gamma
correction and clamping happen in the caller, after averaging. -/
theorem renderPixel_spec (world : ObjCollection) (rays : List Ray) :
    renderPixel world rays =
      (toByte (min 255 (255 * ratSqrt
          ((rays.map (fun r => (color world r 0).z)).sum / rays.length))),
       toByte (min 255 (255 * ratSqrt
          ((rays.map (fun r => (color world r 0).y)).sum / rays.length))),
       toByte (min 255 (255 * ratSqrt
          ((rays.map (fun r => (color world r 0).x)).sum / rays.length)))) := by
  unfold renderPixel
  rw [foldl_add_components]
  simp only [Vec3.zero, Vec3.divScalar, gammaClamp, List.map_map,
    Function.comp_def, zero_add]
